import Mathlib

/-!
Verification of the copy/swap/fill engine of `src/hotspot/share/utilities/copy.cpp`.

Memory is modelled as a total function from byte addresses (`Nat`) to bytes
(`Fin 256`).  The address `0` plays the role of the null pointer.  A typed load
or store of an element of width `w` is modelled by reading or writing `w`
consecutive bytes; the numeric value of an element is its little-endian
assembly (the choice of endianness is irrelevant to the byte-level semantics,
since every element is loaded and stored with the same convention).
A fatal assertion (`assert` / `guarantee`) is modelled by returning `none`.
-/

abbrev Byte := Fin 256

abbrev Mem := Nat → Byte

/-- Read `n` consecutive bytes starting at address `a`. -/
def readBytes (m : Mem) (a : Nat) : Nat → List Byte
  | 0 => []
  | n + 1 => m a :: readBytes m (a + 1) n

/-- Write the byte list `bs` to consecutive addresses starting at `a`. -/
def writeBytes (m : Mem) (a : Nat) : List Byte → Mem
  | [] => m
  | b :: bs => writeBytes (fun x => if x = a then b else m x) (a + 1) bs

/-- Little-endian value of a byte list. -/
def bytesToVal : List Byte → Nat
  | [] => 0
  | b :: bs => b.val + 256 * bytesToVal bs

/-- The `n` little-endian bytes of a value. -/
def valToBytes : Nat → Nat → List Byte
  | 0, _ => []
  | n + 1, v => ⟨v % 256, Nat.mod_lt v (by norm_num)⟩ :: valToBytes n (v / 256)

/-- Modelled from the spec: `byteswap` (from `utilities/byteswap.hpp`, not part
of the sources under verification) reverses the byte order of a `w`-byte
element value. -/
def byteswapVal (w v : Nat) : Nat := bytesToVal ((valToBytes w v).reverse)

/-- `CopySwap::CopyDirection` from `copy.cpp`. -/
inductive CopyDirection
  | RIGHT -- lower -> higher address
  | LEFT  -- higher -> lower address
deriving DecidableEq

/-- A direct typed load of a `w`-byte element (taken when the address is
aligned): assembles the `w` bytes at `a`. -/
def loadDirect (m : Mem) (a w : Nat) : Nat := bytesToVal (readBytes m a w)

/-- A staged load through `memcpy` into a same-width temporary (taken when the
address is misaligned): reads the same `w` bytes. -/
def loadStaged (m : Mem) (a w : Nat) : Nat := bytesToVal (readBytes m a w)

/-- A direct typed store of a `w`-byte element value. -/
def storeDirect (m : Mem) (a w v : Nat) : Mem := writeBytes m a (valToBytes w v)

/-- A staged store through `memcpy` from a same-width temporary: writes the
same `w` bytes. -/
def storeStaged (m : Mem) (a w v : Nat) : Mem := writeBytes m a (valToBytes w v)

/-- The innermost loop of `CopySwap::do_conjoint_swap<T,D,swap,is_src_aligned,
is_dst_aligned>`: `count` iterations, each loading one element at `curSrc`
(directly if `sA`, staged otherwise), optionally byte swapping it, storing it
at `curDst` (directly if `dA`, staged otherwise), then advancing both cursors
by the element width in the direction `D`. -/
def do_conjoint_swap_loop (w : Nat) (D : CopyDirection) (sw sA dA : Bool)
    (curSrc curDst : Nat) : Nat → Mem → Mem
  | 0, m => m
  | c + 1, m =>
    let tmp := if sA then loadDirect m curSrc w else loadStaged m curSrc w
    let tmp := if sw then byteswapVal w tmp else tmp
    let m1 := if dA then storeDirect m curDst w tmp else storeStaged m curDst w tmp
    match D with
    | .RIGHT => do_conjoint_swap_loop w D sw sA dA (curSrc + w) (curDst + w) c m1
    | .LEFT => do_conjoint_swap_loop w D sw sA dA (curSrc - w) (curDst - w) c m1

/-- `CopySwap::do_conjoint_swap<T,D,swap,is_src_aligned,is_dst_aligned>`:
initial cursors are the range starts for `RIGHT`, the last element for `LEFT`;
the loop runs `byte_count / sizeof(T)` times. -/
def do_conjoint_swapT (w : Nat) (D : CopyDirection) (sw sA dA : Bool)
    (src dst byte_count : Nat) (m : Mem) : Mem :=
  let curSrc := match D with | .RIGHT => src | .LEFT => src + byte_count - w
  let curDst := match D with | .RIGHT => dst | .LEFT => dst + byte_count - w
  do_conjoint_swap_loop w D sw sA dA curSrc curDst (byte_count / w) m

/-- `CopySwap::do_conjoint_swap<T,direction,swap>`: dispatch on the alignment
of `src` and `dst` with respect to `sizeof(T)` (`is_aligned(p, w)` is
`p % w == 0`). -/
def do_conjoint_swap_align (w : Nat) (D : CopyDirection) (sw : Bool)
    (src dst byte_count : Nat) (m : Mem) : Mem :=
  if src % w = 0 then
    if dst % w = 0 then do_conjoint_swapT w D sw true true src dst byte_count m
    else do_conjoint_swapT w D sw true false src dst byte_count m
  else
    if dst % w = 0 then do_conjoint_swapT w D sw false true src dst byte_count m
    else do_conjoint_swapT w D sw false false src dst byte_count m

/-- `CopySwap::do_conjoint_swap<D,swap>`: dispatch on the element size; the
`default` branch is `guarantee(false, ...)`, a fatal abort, modelled as
`none`. -/
def do_conjoint_swap_elem (D : CopyDirection) (sw : Bool)
    (src dst byte_count elem_size : Nat) (m : Mem) : Option Mem :=
  match elem_size with
  | 2 => some (do_conjoint_swap_align 2 D sw src dst byte_count m)
  | 4 => some (do_conjoint_swap_align 4 D sw src dst byte_count m)
  | 8 => some (do_conjoint_swap_align 8 D sw src dst byte_count m)
  | _ => none

/-- Direction selection in `CopySwap::conjoint_swap_if_needed`:
`dst <= src || dst >= src_end` picks `RIGHT`, otherwise `LEFT`. -/
def selectDirection (src dst byte_count : Nat) : CopyDirection :=
  if dst ≤ src ∨ src + byte_count ≤ dst then .RIGHT else .LEFT

/-- `CopySwap::conjoint_swap_if_needed<swap>`: the four `assert`s (non-null
addresses, element size in {2,4,8}, byte count a multiple of the element size)
are modelled as fatal (`none`); then the direction is selected once and the
element-size dispatch runs. -/
def conjoint_swap_if_needed (sw : Bool) (src dst byte_count elem_size : Nat)
    (m : Mem) : Option Mem :=
  if src = 0 ∨ dst = 0 then none
  else if ¬ (elem_size = 2 ∨ elem_size = 4 ∨ elem_size = 8) then none
  else if ¬ (byte_count % elem_size = 0) then none
  else do_conjoint_swap_elem (selectDirection src dst byte_count) sw src dst byte_count elem_size m

/-- `Copy::conjoint_copy` (the spec's `copyConjoint`): no byte swap. -/
def conjoint_copy (src dst byte_count elem_size : Nat) (m : Mem) : Option Mem :=
  conjoint_swap_if_needed false src dst byte_count elem_size m

/-- `Copy::conjoint_swap` (the spec's `copySwap`): with byte swap. -/
def conjoint_swap (src dst byte_count elem_size : Nat) (m : Mem) : Option Mem :=
  conjoint_swap_if_needed true src dst byte_count elem_size m

/-- Forward copy of `count` units of `u` bytes each, one unit per iteration. -/
def copyUnits (u : Nat) : Nat → Nat → Nat → Mem → Mem
  | _, _, 0, m => m
  | src, dst, c + 1, m =>
    copyUnits u (src + u) (dst + u) c (writeBytes m dst (readBytes m src u))

/-- Modelled from the spec: `Copy::conjoint_jlongs_atomic` (declared in
`copy.hpp`, not among the sources) — a loop over `count` units of 8 bytes,
each read then written with a single typed load/store. -/
def conjoint_jlongs_atomic (src dst count : Nat) (m : Mem) : Mem :=
  copyUnits 8 src dst count m

/-- Modelled from the spec: `Copy::conjoint_jints_atomic` — 4-byte units. -/
def conjoint_jints_atomic (src dst count : Nat) (m : Mem) : Mem :=
  copyUnits 4 src dst count m

/-- Modelled from the spec: `Copy::conjoint_jshorts_atomic` — 2-byte units. -/
def conjoint_jshorts_atomic (src dst count : Nat) (m : Mem) : Mem :=
  copyUnits 2 src dst count m

/-- Modelled from the spec: `Copy::conjoint_jbytes` — the plain byte loop the
unit width 1 degenerates to. -/
def conjoint_jbytes (src dst byte_count : Nat) (m : Mem) : Mem :=
  copyUnits 1 src dst byte_count m

/-- The alignment classifier of `Copy::conjoint_memory_atomic` and
`Copy::fill_to_memory_atomic`: the bitwise OR of the operands, then the first
of 8, 4, 2, 1 that divides it. -/
def classify (xs : List Nat) : Nat :=
  let bits := xs.foldl Nat.lor 0
  if bits % 8 = 0 then 8
  else if bits % 4 = 0 then 4
  else if bits % 2 = 0 then 2
  else 1

/-- `Copy::conjoint_memory_atomic`: `bits = from | to | size`, then the widest
unit in {8,4,2} dividing `bits`, falling back to the byte copy.  In each branch
the unit width divides `size` (it divides `bits`), so the C loops perform
exactly `size / unit` iterations. -/
def conjoint_memory_atomic (src dst size : Nat) (m : Mem) : Mem :=
  let bits := Nat.lor (Nat.lor src dst) size
  if bits % 8 = 0 then conjoint_jlongs_atomic src dst (size / 8) m
  else if bits % 4 = 0 then conjoint_jints_atomic src dst (size / 4) m
  else if bits % 2 = 0 then conjoint_jshorts_atomic src dst (size / 2) m
  else conjoint_jbytes src dst size m

/-- Fill `count` units of `u` bytes each with the pattern value `pat`. -/
def fillUnits (u pat : Nat) : Nat → Nat → Mem → Mem
  | _, 0, m => m
  | dst, c + 1, m => fillUnits u pat (dst + u) c (writeBytes m dst (valToBytes u pat))

/-- The 8-byte fill pattern of `Copy::fill_to_memory_atomic`: `jlong fill =
value; if (fill != 0) { fill += fill << 8; fill += fill << 16; fill += fill
<< 32; }`, with 64-bit wraparound. -/
def fillPattern8 (value : Nat) : Nat :=
  if value ≠ 0 then
    let f1 := (value + (value <<< 8)) % 2 ^ 64
    let f2 := (f1 + (f1 <<< 16)) % 2 ^ 64
    (f2 + (f2 <<< 32)) % 2 ^ 64
  else value

/-- The 4-byte fill pattern: `jint fill = value; if (fill != 0) { fill += fill
<< 8; fill += fill << 16; }`, with 32-bit wraparound. -/
def fillPattern4 (value : Nat) : Nat :=
  if value ≠ 0 then
    let f1 := (value + (value <<< 8)) % 2 ^ 32
    (f1 + (f1 <<< 16)) % 2 ^ 32
  else value

/-- The 2-byte fill pattern: `jshort fill = value; fill += (jshort)(fill <<
8);`, with 16-bit wraparound. -/
def fillPattern2 (value : Nat) : Nat :=
  (value + (value <<< 8)) % 2 ^ 16

/-- The fill pattern `Copy::fill_to_memory_atomic` stores with a unit of `u`
bytes: the byte-doubled wide pattern for 8, 4 and 2, the plain byte for 1. -/
def fillPatternFor (u value : Nat) : Nat :=
  if u = 8 then fillPattern8 value
  else if u = 4 then fillPattern4 value
  else if u = 2 then fillPattern2 value
  else value % 256

/-- Modelled from the spec: `Copy::fill_to_bytes` (declared in `copy.hpp`, not
among the sources) — a plain byte-at-a-time fill. -/
def fill_to_bytes (dst size value : Nat) (m : Mem) : Mem :=
  fillUnits 1 (value % 256) dst size m

/-- `Copy::fill_to_memory_atomic`: `bits = to | size`, then the widest unit in
{8,4,2} dividing `bits` with its byte-doubled pattern, falling back to the
byte fill.  In each branch the unit width divides `size`, so the C loops
(`for (off = 0; off < size; off += unit)`) perform exactly `size / unit`
iterations. -/
def fill_to_memory_atomic (dst size value : Nat) (m : Mem) : Mem :=
  let bits := Nat.lor dst size
  if bits % 8 = 0 then fillUnits 8 (fillPattern8 value) dst (size / 8) m
  else if bits % 4 = 0 then fillUnits 4 (fillPattern4 value) dst (size / 4) m
  else if bits % 2 = 0 then fillUnits 2 (fillPattern2 value) dst (size / 2) m
  else fill_to_bytes dst size value m

/-- The reference implementation the spec describes for overlap equivalence:
first copy the `n` source bytes into a separate temporary buffer, then copy
that temporary into `dst`. -/
def refCopyViaTemp (m : Mem) (src dst n : Nat) : Mem :=
  let temp := readBytes m src n
  writeBytes m dst temp

/-- The source byte offset feeding destination byte offset `off` in a
`w`-element-wise copy: the same element, the mirrored byte within the element
when swapping. -/
def swapIdx (w off : Nat) : Nat := off / w * w + (w - 1 - off % w)

/-- The source byte offset feeding destination byte offset `off`, with or
without the per-element byte-order reversal. -/
def swapOff (w : Nat) (sw : Bool) (off : Nat) : Nat :=
  if sw then swapIdx w off else off

/-- The byte that an element-wise (optionally swapping) copy from `src` puts
at destination offset `off`. -/
def elemByte (m : Mem) (src w : Nat) (sw : Bool) (off : Nat) : Byte :=
  m (src + swapOff w sw off)

/-- The memory an element-wise (optionally swapping) copy of `n` bytes from
`src` to `dst` leaves behind: destination bytes come from the original source,
everything else is untouched. -/
def copyResult (m : Mem) (src dst n w : Nat) (sw : Bool) : Mem :=
  fun x => if dst ≤ x ∧ x < dst + n then elemByte m src w sw (x - dst) else m x

/-- All-zero memory, used for concrete test inputs. -/
def m0 : Mem := fun _ => 0

/-- Memory with bytes 0x01,0x02,0x03,0x04 at addresses 4..7 (the spec's
in-place swap example buffer). -/
def mbuf4 : Mem := writeBytes m0 4 [1, 2, 3, 4]

/-- Memory with bytes 00..07 at addresses 8..15 (the spec's overlapping
2-byte-element shift example buffer). -/
def mbuf8 : Mem := writeBytes m0 8 [0, 1, 2, 3, 4, 5, 6, 7]

theorem readBytes_length (m : Mem) : ∀ (n a : Nat), (readBytes m a n).length = n
  | 0, _ => rfl
  | n + 1, a => by simp [readBytes, readBytes_length m n (a + 1)]

theorem readBytes_getD (m : Mem) :
    ∀ (n a i : Nat), i < n → (readBytes m a n).getD i 0 = m (a + i)
  | 0, _, _, h => absurd h (Nat.not_lt_zero _)
  | n + 1, a, 0, _ => by simp [readBytes]
  | n + 1, a, i + 1, h => by
    have ih := readBytes_getD m n (a + 1) i (by omega)
    simp only [readBytes, List.getD_cons_succ]
    rw [ih]
    exact congrArg m (by omega)

theorem writeBytes_apply :
    ∀ (bs : List Byte) (a : Nat) (m : Mem) (x : Nat),
      writeBytes m a bs x =
        if a ≤ x ∧ x < a + bs.length then bs.getD (x - a) 0 else m x
  | [], a, m, x => by
    simp only [writeBytes, List.length_nil]
    rw [if_neg (by omega)]
  | b :: bs, a, m, x => by
    have ih := writeBytes_apply bs (a + 1) (fun y => if y = a then b else m y) x
    simp only [writeBytes] at ih ⊢
    rw [ih]
    by_cases h1 : a + 1 ≤ x ∧ x < a + 1 + bs.length
    · rw [if_pos h1, if_pos (by simp only [List.length_cons]; omega)]
      have hx : x - a = (x - (a + 1)) + 1 := by omega
      rw [hx, List.getD_cons_succ]
    · rw [if_neg h1]
      by_cases h2 : x = a
      · subst h2
        rw [if_pos rfl, if_pos (by simp only [List.length_cons]; omega)]
        simp
      · rw [if_neg h2, if_neg (by simp only [List.length_cons]; omega)]

theorem valToBytes_length : ∀ (n v : Nat), (valToBytes n v).length = n
  | 0, _ => rfl
  | n + 1, v => by simp [valToBytes, valToBytes_length n (v / 256)]

theorem valToBytes_bytesToVal :
    ∀ (bs : List Byte), valToBytes bs.length (bytesToVal bs) = bs
  | [] => rfl
  | b :: bs => by
    simp only [List.length_cons, bytesToVal, valToBytes]
    have hmod : (b.val + 256 * bytesToVal bs) % 256 = b.val := by
      rw [Nat.add_mul_mod_self_left, Nat.mod_eq_of_lt b.isLt]
    have hdiv : (b.val + 256 * bytesToVal bs) / 256 = bytesToVal bs := by
      rw [Nat.add_mul_div_left _ _ (by norm_num : 0 < 256),
        Nat.div_eq_of_lt b.isLt, Nat.zero_add]
    rw [hdiv, valToBytes_bytesToVal bs]
    exact congrArg (· :: bs) (Fin.ext hmod)

theorem valToBytes_bytesToVal_of_length {bs : List Byte} {n : Nat}
    (h : bs.length = n) : valToBytes n (bytesToVal bs) = bs := by
  subst h; exact valToBytes_bytesToVal bs

theorem byteswap_bytes {bs : List Byte} {w : Nat} (h : bs.length = w) :
    valToBytes w (byteswapVal w (bytesToVal bs)) = bs.reverse := by
  unfold byteswapVal
  rw [valToBytes_bytesToVal_of_length h]
  exact valToBytes_bytesToVal_of_length (by simpa using h)

theorem getD_reverse {l : List Byte} {i : Nat} (h : i < l.length) :
    l.reverse.getD i 0 = l.getD (l.length - 1 - i) 0 := by
  rw [List.getD_eq_getElem _ _ (by simpa using h),
    List.getD_eq_getElem _ _ (by omega)]
  exact List.getElem_reverse (by simpa using h)

theorem swapIdx_of_lt {w off : Nat} (h : off < w) : swapIdx w off = w - 1 - off := by
  unfold swapIdx
  rw [Nat.div_eq_of_lt h, Nat.mod_eq_of_lt h]
  omega

theorem swapIdx_lt {w off c : Nat} (hw : 0 < w) (h : off < c * w) :
    swapIdx w off < c * w := by
  unfold swapIdx
  have hq : off / w < c := (Nat.div_lt_iff_lt_mul hw).2 h
  have hr : off % w < w := Nat.mod_lt off hw
  have h1 : (off / w + 1) * w ≤ c * w := Nat.mul_le_mul_right w hq
  rw [Nat.succ_mul] at h1
  omega

theorem swapIdx_add_mul {w off k : Nat} (hw : 0 < w) :
    swapIdx w (off + k * w) = swapIdx w off + k * w := by
  unfold swapIdx
  rw [Nat.add_mul_div_right off k hw, Nat.add_mul_mod_self_right off k w,
    Nat.add_mul]
  have hr : off % w < w := Nat.mod_lt off hw
  omega

theorem swapOff_lt {w off c : Nat} (sw : Bool) (hw : 0 < w) (h : off < c * w) :
    swapOff w sw off < c * w := by
  cases sw
  · simpa [swapOff] using h
  · simpa [swapOff] using swapIdx_lt hw h

theorem swapOff_add_mul {w off k : Nat} (sw : Bool) (hw : 0 < w) :
    swapOff w sw (off + k * w) = swapOff w sw off + k * w := by
  cases sw
  · simp [swapOff]
  · simpa [swapOff] using swapIdx_add_mul hw

theorem write_one_char {w : Nat} (hw : 0 < w) (sw : Bool) (m : Mem) (s d : Nat) :
    writeBytes m d (if sw then (readBytes m s w).reverse else readBytes m s w) =
      copyResult m s d w w sw := by
  funext x
  rw [writeBytes_apply]
  have hL : (if sw then (readBytes m s w).reverse else readBytes m s w).length = w := by
    cases sw <;> simp [readBytes_length]
  rw [hL]
  unfold copyResult
  by_cases hx : d ≤ x ∧ x < d + w
  · rw [if_pos hx, if_pos hx]
    have hoff : x - d < w := by omega
    unfold elemByte swapOff
    cases sw
    · simp only [Bool.false_eq_true, if_neg, ite_false]
      exact readBytes_getD m w s (x - d) hoff
    · simp only [ite_true]
      rw [getD_reverse (by rw [readBytes_length]; exact hoff),
        readBytes_length, readBytes_getD m w s _ (by omega), swapIdx_of_lt hoff]
  · rw [if_neg hx, if_neg hx]

theorem loop_succ_right (w : Nat) (sw sA dA : Bool) (s d c : Nat) (m : Mem) :
    do_conjoint_swap_loop w .RIGHT sw sA dA s d (c + 1) m =
      do_conjoint_swap_loop w .RIGHT sw sA dA (s + w) (d + w) c
        (writeBytes m d (if sw then (readBytes m s w).reverse else readBytes m s w)) := by
  have hbs : valToBytes w
      (if sw then byteswapVal w (bytesToVal (readBytes m s w))
       else bytesToVal (readBytes m s w)) =
      (if sw then (readBytes m s w).reverse else readBytes m s w) := by
    cases sw
    · simpa using valToBytes_bytesToVal_of_length (readBytes_length m w s)
    · simpa using byteswap_bytes (readBytes_length m w s)
  simp only [do_conjoint_swap_loop, loadDirect, loadStaged, storeDirect,
    storeStaged, ite_self]
  rw [hbs]

theorem loop_succ_left (w : Nat) (sw sA dA : Bool) (s d c : Nat) (m : Mem) :
    do_conjoint_swap_loop w .LEFT sw sA dA s d (c + 1) m =
      do_conjoint_swap_loop w .LEFT sw sA dA (s - w) (d - w) c
        (writeBytes m d (if sw then (readBytes m s w).reverse else readBytes m s w)) := by
  have hbs : valToBytes w
      (if sw then byteswapVal w (bytesToVal (readBytes m s w))
       else bytesToVal (readBytes m s w)) =
      (if sw then (readBytes m s w).reverse else readBytes m s w) := by
    cases sw
    · simpa using valToBytes_bytesToVal_of_length (readBytes_length m w s)
    · simpa using byteswap_bytes (readBytes_length m w s)
  simp only [do_conjoint_swap_loop, loadDirect, loadStaged, storeDirect,
    storeStaged, ite_self]
  rw [hbs]


theorem copyResult_zero (m : Mem) (s d w : Nat) (sw : Bool) :
    copyResult m s d 0 w sw = m := by
  funext x
  simp only [copyResult]
  rw [if_neg (by omega)]

theorem loop_zero (w : Nat) (D : CopyDirection) (sw sA dA : Bool) (s d : Nat) (m : Mem) :
    do_conjoint_swap_loop w D sw sA dA s d 0 m = m := rfl

theorem copyResult_apply (m : Mem) (s d n w : Nat) (sw : Bool) (x : Nat) :
    copyResult m s d n w sw x =
      if d ≤ x ∧ x < d + n then m (s + swapOff w sw (x - d)) else m x := rfl

theorem swapOff_lt_dvd {w K off : Nat} (sw : Bool) (hw : 0 < w) (hdvd : w ∣ K)
    (h : off < K) : swapOff w sw off < K := by
  obtain ⟨c, rfl⟩ := hdvd
  rw [Nat.mul_comm] at h ⊢
  exact swapOff_lt sw hw h

theorem swapOff_add_dvd {w K off : Nat} (sw : Bool) (hw : 0 < w) (hdvd : w ∣ K) :
    swapOff w sw (off + K) = swapOff w sw off + K := by
  obtain ⟨c, rfl⟩ := hdvd
  rw [Nat.mul_comm]
  exact swapOff_add_mul sw hw

theorem copyResult_step_right (sw : Bool) (m : Mem) (s d w K : Nat) (hw : 0 < w)
    (hdvd : w ∣ K) (h : d ≤ s ∨ s + K + w ≤ d) :
    copyResult (copyResult m s d w w sw) (s + w) (d + w) K w sw =
      copyResult m s d (K + w) w sw := by
  funext x
  rw [copyResult_apply (copyResult m s d w w sw) (s + w) (d + w) K w sw x,
    copyResult_apply m s d (K + w) w sw x]
  by_cases hx1 : d + w ≤ x ∧ x < d + w + K
  · rw [if_pos hx1, if_pos (show d ≤ x ∧ x < d + (K + w) by omega)]
    have hoff : x - (d + w) < K := by omega
    have hidx : swapOff w sw (x - (d + w)) < K := swapOff_lt_dvd sw hw hdvd hoff
    rw [copyResult_apply m s d w w sw (s + w + swapOff w sw (x - (d + w)))]
    rw [if_neg (by intro hc; rcases h with h | h <;> omega)]
    have hxd : x - d = (x - (d + w)) + w := by omega
    rw [hxd, swapOff_add_dvd sw hw (dvd_refl w)]
    exact congrArg m (by omega)
  · rw [if_neg hx1, copyResult_apply m s d w w sw x]
    by_cases hx2 : d ≤ x ∧ x < d + w
    · rw [if_pos hx2, if_pos (show d ≤ x ∧ x < d + (K + w) by omega)]
    · rw [if_neg hx2, if_neg (show ¬ (d ≤ x ∧ x < d + (K + w)) by omega)]

theorem copyResult_step_left (sw : Bool) (m : Mem) (s d w K : Nat) (hw : 0 < w)
    (hdvd : w ∣ K) (hsd : s ≤ d) :
    copyResult (copyResult m (s + K) (d + K) w w sw) s d K w sw =
      copyResult m s d (K + w) w sw := by
  funext x
  rw [copyResult_apply (copyResult m (s + K) (d + K) w w sw) s d K w sw x,
    copyResult_apply m s d (K + w) w sw x]
  by_cases hx1 : d ≤ x ∧ x < d + K
  · rw [if_pos hx1, if_pos (show d ≤ x ∧ x < d + (K + w) by omega)]
    have hoff : x - d < K := by omega
    have hidx : swapOff w sw (x - d) < K := swapOff_lt_dvd sw hw hdvd hoff
    rw [copyResult_apply m (s + K) (d + K) w w sw (s + swapOff w sw (x - d))]
    rw [if_neg (by intro hc; omega)]
  · rw [if_neg hx1, copyResult_apply m (s + K) (d + K) w w sw x]
    by_cases hx2 : d + K ≤ x ∧ x < d + K + w
    · rw [if_pos hx2, if_pos (show d ≤ x ∧ x < d + (K + w) by omega)]
      have hxd : x - d = (x - (d + K)) + K := by omega
      rw [hxd, swapOff_add_dvd sw hw hdvd]
      exact congrArg m (by omega)
    · rw [if_neg hx2, if_neg (show ¬ (d ≤ x ∧ x < d + (K + w)) by omega)]

theorem loop_right_char (w : Nat) (hw : 0 < w) (sw sA dA : Bool) :
    ∀ (c s d : Nat) (m : Mem), (d ≤ s ∨ s + c * w ≤ d) →
      do_conjoint_swap_loop w .RIGHT sw sA dA s d c m = copyResult m s d (c * w) w sw
  | 0, s, d, m, _ => by
    rw [Nat.zero_mul, copyResult_zero]
    rfl
  | c + 1, s, d, m, h => by
    have hc1 : (c + 1) * w = c * w + w := Nat.succ_mul c w
    rw [hc1] at h
    rw [loop_succ_right]
    have hcond : d + w ≤ s + w ∨ (s + w) + c * w ≤ d + w := by
      rcases h with h | h
      · exact Or.inl (by omega)
      · exact Or.inr (by omega)
    rw [loop_right_char w hw sw sA dA c (s + w) (d + w) _ hcond, write_one_char hw,
      hc1]
    exact copyResult_step_right sw m s d w (c * w) hw (dvd_mul_left w c)
      (by rcases h with h | h <;> omega)

theorem loop_left_char (w : Nat) (hw : 0 < w) (sw sA dA : Bool) :
    ∀ (c s d : Nat) (m : Mem), s ≤ d →
      do_conjoint_swap_loop w .LEFT sw sA dA (s + c * w) (d + c * w) (c + 1) m =
        copyResult m s d ((c + 1) * w) w sw
  | 0, s, d, m, _ => by
    rw [loop_succ_left]
    simp only [Nat.zero_mul, Nat.add_zero, Nat.zero_add, Nat.one_mul]
    rw [write_one_char hw, loop_zero]
  | c + 1, s, d, m, hsd => by
    have hc1 : (c + 1) * w = c * w + w := Nat.succ_mul c w
    have hc2 : (c + 1 + 1) * w = (c + 1) * w + w := Nat.succ_mul (c + 1) w
    rw [loop_succ_left]
    have hsub1 : s + (c + 1) * w - w = s + c * w := by rw [hc1]; omega
    have hsub2 : d + (c + 1) * w - w = d + c * w := by rw [hc1]; omega
    rw [hsub1, hsub2,
      loop_left_char w hw sw sA dA c s d _ hsd, write_one_char hw, hc2]
    exact copyResult_step_left sw m s d w ((c + 1) * w) hw
      (dvd_mul_left w (c + 1)) hsd

theorem swapT_right_char (w : Nat) (hw : 0 < w) (sw sA dA : Bool) (s d n : Nat)
    (m : Mem) (hdvd : w ∣ n) (h : d ≤ s ∨ s + n ≤ d) :
    do_conjoint_swapT w .RIGHT sw sA dA s d n m = copyResult m s d n w sw := by
  obtain ⟨c, rfl⟩ := hdvd
  rw [Nat.mul_comm w c] at h ⊢
  show do_conjoint_swap_loop w .RIGHT sw sA dA s d (c * w / w) m =
    copyResult m s d (c * w) w sw
  rw [Nat.mul_div_cancel c hw]
  exact loop_right_char w hw sw sA dA c s d m h

theorem swapT_left_char (w : Nat) (hw : 0 < w) (sw sA dA : Bool) (s d n : Nat)
    (m : Mem) (hdvd : w ∣ n) (hn : 0 < n) (hsd : s ≤ d) :
    do_conjoint_swapT w .LEFT sw sA dA s d n m = copyResult m s d n w sw := by
  obtain ⟨c, rfl⟩ := hdvd
  rw [Nat.mul_comm w c] at hn ⊢
  show do_conjoint_swap_loop w .LEFT sw sA dA (s + c * w - w) (d + c * w - w)
      (c * w / w) m = copyResult m s d (c * w) w sw
  rw [Nat.mul_div_cancel c hw]
  obtain ⟨c, rfl⟩ : ∃ k, c = k + 1 := by
    rcases c with _ | k
    · exfalso; omega
    · exact ⟨k, rfl⟩
  have hc1 : (c + 1) * w = c * w + w := Nat.succ_mul c w
  have hsub1 : s + (c + 1) * w - w = s + c * w := by rw [hc1]; omega
  have hsub2 : d + (c + 1) * w - w = d + c * w := by rw [hc1]; omega
  rw [hsub1, hsub2]
  exact loop_left_char w hw sw sA dA c s d m hsd

theorem align_right_char (w : Nat) (hw : 0 < w) (sw : Bool) (s d n : Nat)
    (m : Mem) (hdvd : w ∣ n) (h : d ≤ s ∨ s + n ≤ d) :
    do_conjoint_swap_align w .RIGHT sw s d n m = copyResult m s d n w sw := by
  unfold do_conjoint_swap_align
  split_ifs <;> exact swapT_right_char w hw sw _ _ s d n m hdvd h

theorem align_left_char (w : Nat) (hw : 0 < w) (sw : Bool) (s d n : Nat)
    (m : Mem) (hdvd : w ∣ n) (hn : 0 < n) (hsd : s ≤ d) :
    do_conjoint_swap_align w .LEFT sw s d n m = copyResult m s d n w sw := by
  unfold do_conjoint_swap_align
  split_ifs <;> exact swapT_left_char w hw sw _ _ s d n m hdvd hn hsd

theorem conjoint_char (sw : Bool) (src dst n w : Nat) (m : Mem)
    (hw : w = 2 ∨ w = 4 ∨ w = 8) (hmod : n % w = 0) (hs : src ≠ 0) (hd : dst ≠ 0) :
    conjoint_swap_if_needed sw src dst n w m =
      some (copyResult m src dst n w sw) := by
  have hw0 : 0 < w := by rcases hw with h | h | h <;> omega
  have hdvd : w ∣ n := Nat.dvd_of_mod_eq_zero hmod
  unfold conjoint_swap_if_needed
  rw [if_neg (by push_neg; exact ⟨hs, hd⟩), if_neg (not_not.mpr hw),
    if_neg (not_not.mpr hmod)]
  unfold selectDirection
  by_cases hdir : dst ≤ src ∨ src + n ≤ dst
  · rw [if_pos hdir]
    rcases hw with h | h | h <;> subst h <;>
      exact congrArg some (align_right_char _ hw0 sw src dst n m hdvd hdir)
  · rw [if_neg hdir]
    push_neg at hdir
    have hsd : src ≤ dst := by omega
    have hn : 0 < n := by omega
    rcases hw with h | h | h <;> subst h <;>
      exact congrArg some (align_left_char _ hw0 sw src dst n m hdvd hn hsd)

theorem swapIdx_invol {w off : Nat} (hw : 0 < w) :
    swapIdx w (swapIdx w off) = off := by
  have hr : off % w < w := Nat.mod_lt off hw
  have hdm := Nat.div_add_mod off w
  unfold swapIdx
  rw [Nat.add_comm (off / w * w)]
  rw [Nat.add_mul_div_right _ _ hw, Nat.add_mul_mod_self_right]
  rw [Nat.div_eq_of_lt (by omega), Nat.mod_eq_of_lt (by omega), Nat.zero_add]
  have hcomm : w * (off / w) = off / w * w := Nat.mul_comm w (off / w)
  omega

theorem swapOff_invol {w off : Nat} (sw : Bool) (hw : 0 < w) :
    swapOff w sw (swapOff w sw off) = off := by
  cases sw
  · simp [swapOff]
  · simpa [swapOff] using swapIdx_invol hw

theorem copyResult_false (m : Mem) (s d n w : Nat) :
    copyResult m s d n w false = refCopyViaTemp m s d n := by
  funext x
  rw [copyResult_apply]
  unfold refCopyViaTemp
  rw [writeBytes_apply, readBytes_length]
  by_cases hx : d ≤ x ∧ x < d + n
  · rw [if_pos hx, if_pos hx, readBytes_getD m n s (x - d) (by omega)]
    simp [swapOff]
  · rw [if_neg hx, if_neg hx]

theorem readBytes_copyResult_swap (m : Mem) (s d n w i : Nat)
    (hw : 0 < w) (hdvd : w ∣ n) (hi : i < n / w) :
    readBytes (copyResult m s d n w true) (d + i * w) w =
      (readBytes m (s + i * w) w).reverse := by
  have hn : (i + 1) * w ≤ n := by
    calc (i + 1) * w ≤ n / w * w := Nat.mul_le_mul_right w (by omega)
    _ = n := Nat.div_mul_cancel hdvd
  have hc1 : (i + 1) * w = i * w + w := Nat.succ_mul i w
  apply List.ext_getElem
  · simp [readBytes_length]
  · intro j h1 h2
    have hj : j < w := by rwa [readBytes_length] at h1
    rw [← List.getD_eq_getElem _ 0 h1, readBytes_getD _ w _ j hj, copyResult_apply,
      if_pos (by omega)]
    have harg : d + i * w + j - d = j + i * w := by omega
    rw [harg, swapOff_add_mul true hw]
    rw [← List.getD_eq_getElem _ 0 h2,
      getD_reverse (by rw [readBytes_length]; exact hj), readBytes_length,
      readBytes_getD _ w _ _ (by omega)]
    refine congrArg m ?_
    unfold swapOff
    rw [if_pos rfl, swapIdx_of_lt hj]
    omega

theorem mod_two_pow_eq_zero_iff {n k : Nat} :
    n % 2 ^ k = 0 ↔ ∀ i, i < k → n.testBit i = false := by
  constructor
  · intro h i hik
    have := congrArg (fun t => Nat.testBit t i) h
    simp only [Nat.testBit_mod_two_pow, Nat.zero_testBit] at this
    rwa [decide_eq_true hik, Bool.true_and] at this
  · intro h
    apply Nat.eq_of_testBit_eq
    intro i
    rw [Nat.testBit_mod_two_pow, Nat.zero_testBit]
    by_cases hik : i < k
    · rw [h i hik, Bool.and_false]
    · rw [decide_eq_false hik, Bool.false_and]

theorem lor_mod_two_pow_eq_zero {a b k : Nat} :
    Nat.lor a b % 2 ^ k = 0 ↔ a % 2 ^ k = 0 ∧ b % 2 ^ k = 0 := by
  have hrw : Nat.lor a b = a ||| b := rfl
  rw [hrw]
  simp only [mod_two_pow_eq_zero_iff, Nat.testBit_lor, Bool.or_eq_false_iff]
  constructor
  · intro h
    exact ⟨fun i hik => (h i hik).1, fun i hik => (h i hik).2⟩
  · intro h i hik
    exact ⟨h.1 i hik, h.2 i hik⟩

theorem lor_mod_eight {a b : Nat} (h : Nat.lor a b % 8 = 0) :
    a % 8 = 0 ∧ b % 8 = 0 := by
  have h8 : (8 : Nat) = 2 ^ 3 := by norm_num
  rw [h8] at h ⊢
  exact lor_mod_two_pow_eq_zero.1 h

theorem lor_mod_four {a b : Nat} (h : Nat.lor a b % 4 = 0) :
    a % 4 = 0 ∧ b % 4 = 0 := by
  have h4 : (4 : Nat) = 2 ^ 2 := by norm_num
  rw [h4] at h ⊢
  exact lor_mod_two_pow_eq_zero.1 h

theorem lor_mod_two {a b : Nat} (h : Nat.lor a b % 2 = 0) :
    a % 2 = 0 ∧ b % 2 = 0 := by
  have h2 : (2 : Nat) = 2 ^ 1 := by norm_num
  rw [h2] at h ⊢
  exact lor_mod_two_pow_eq_zero.1 h

theorem copyUnits_outside (u : Nat) :
    ∀ (c s d x : Nat) (m : Mem), (x < d ∨ d + c * u ≤ x) →
      copyUnits u s d c m x = m x
  | 0, _, _, _, _, _ => rfl
  | c + 1, s, d, x, m, h => by
    have hc1 : (c + 1) * u = c * u + u := Nat.succ_mul c u
    show copyUnits u (s + u) (d + u) c (writeBytes m d (readBytes m s u)) x = m x
    rw [copyUnits_outside u c (s + u) (d + u) x _ (by omega), writeBytes_apply,
      readBytes_length, if_neg (by omega)]

theorem fillUnits_outside (u pat : Nat) :
    ∀ (c d x : Nat) (m : Mem), (x < d ∨ d + c * u ≤ x) →
      fillUnits u pat d c m x = m x
  | 0, _, _, _, _ => rfl
  | c + 1, d, x, m, h => by
    have hc1 : (c + 1) * u = c * u + u := Nat.succ_mul c u
    show fillUnits u pat (d + u) c (writeBytes m d (valToBytes u pat)) x = m x
    rw [fillUnits_outside u pat c (d + u) x _ (by omega), writeBytes_apply,
      valToBytes_length, if_neg (by omega)]

theorem fillUnits_const {u pat : Nat} {b : Byte}
    (hpat : valToBytes u pat = List.replicate u b) :
    ∀ (c d x : Nat) (m : Mem), d ≤ x → x < d + c * u →
      fillUnits u pat d c m x = b
  | 0, d, x, m, h1, h2 => by
    exfalso
    rw [Nat.zero_mul] at h2
    omega
  | c + 1, d, x, m, h1, h2 => by
    have hc1 : (c + 1) * u = c * u + u := Nat.succ_mul c u
    show fillUnits u pat (d + u) c (writeBytes m d (valToBytes u pat)) x = b
    by_cases hx : d + u ≤ x
    · exact fillUnits_const hpat c (d + u) x _ hx (by omega)
    · have hu : 0 < u := by omega
      rw [fillUnits_outside u pat c (d + u) x _ (by omega), writeBytes_apply,
        valToBytes_length, if_pos (by omega), hpat,
        List.getD_eq_getElem _ 0 (by simp; omega), List.getElem_replicate]

theorem fillPattern8_eq {v : Nat} (hv : v < 256) :
    fillPattern8 v = bytesToVal (List.replicate 8 (⟨v, hv⟩ : Byte)) := by
  have hrep : bytesToVal (List.replicate 8 (⟨v, hv⟩ : Byte)) =
      v + 256 * (v + 256 * (v + 256 * (v + 256 * (v + 256 * (v + 256 * (v + 256 * v)))))) := by
    simp [bytesToVal, List.replicate]
  rw [hrep]
  unfold fillPattern8
  by_cases h0 : v = 0
  · subst h0
    simp
  · rw [if_pos h0]
    simp only [Nat.shiftLeft_eq]
    have e8 : (2 : Nat) ^ 8 = 256 := by norm_num
    have e16 : (2 : Nat) ^ 16 = 65536 := by norm_num
    have e32 : (2 : Nat) ^ 32 = 4294967296 := by norm_num
    have e64 : (2 : Nat) ^ 64 = 18446744073709551616 := by norm_num
    rw [e8, e16, e32, e64]
    omega

theorem fillPattern4_eq {v : Nat} (hv : v < 256) :
    fillPattern4 v = bytesToVal (List.replicate 4 (⟨v, hv⟩ : Byte)) := by
  have hrep : bytesToVal (List.replicate 4 (⟨v, hv⟩ : Byte)) =
      v + 256 * (v + 256 * (v + 256 * v)) := by
    simp [bytesToVal, List.replicate]
  rw [hrep]
  unfold fillPattern4
  by_cases h0 : v = 0
  · subst h0
    simp
  · rw [if_pos h0]
    simp only [Nat.shiftLeft_eq]
    have e8 : (2 : Nat) ^ 8 = 256 := by norm_num
    have e16 : (2 : Nat) ^ 16 = 65536 := by norm_num
    have e32 : (2 : Nat) ^ 32 = 4294967296 := by norm_num
    rw [e8, e16, e32]
    omega

theorem fillPattern2_eq {v : Nat} (hv : v < 256) :
    fillPattern2 v = bytesToVal (List.replicate 2 (⟨v, hv⟩ : Byte)) := by
  have hrep : bytesToVal (List.replicate 2 (⟨v, hv⟩ : Byte)) = v + 256 * v := by
    simp [bytesToVal, List.replicate]
  rw [hrep]
  unfold fillPattern2
  simp only [Nat.shiftLeft_eq]
  have e8 : (2 : Nat) ^ 8 = 256 := by norm_num
  have e16 : (2 : Nat) ^ 16 = 65536 := by norm_num
  rw [e8, e16]
  omega

theorem fillPattern8_repl {v : Nat} (hv : v < 256) :
    valToBytes 8 (fillPattern8 v) = List.replicate 8 (⟨v, hv⟩ : Byte) := by
  rw [fillPattern8_eq hv]
  exact valToBytes_bytesToVal_of_length (by simp)

theorem fillPattern4_repl {v : Nat} (hv : v < 256) :
    valToBytes 4 (fillPattern4 v) = List.replicate 4 (⟨v, hv⟩ : Byte) := by
  rw [fillPattern4_eq hv]
  exact valToBytes_bytesToVal_of_length (by simp)

theorem fillPattern2_repl {v : Nat} (hv : v < 256) :
    valToBytes 2 (fillPattern2 v) = List.replicate 2 (⟨v, hv⟩ : Byte) := by
  rw [fillPattern2_eq hv]
  exact valToBytes_bytesToVal_of_length (by simp)

theorem fillPattern1_repl {v : Nat} (hv : v < 256) :
    valToBytes 1 (v % 256) = List.replicate 1 (⟨v, hv⟩ : Byte) := by
  have h : v % 256 = v := Nat.mod_eq_of_lt hv
  simp [valToBytes, List.replicate, h, Fin.ext_iff]

theorem lor_zero_left (n : Nat) : Nat.lor 0 n = n := Nat.zero_or n

theorem fill_char (dst size v : Nat) (m : Mem) (hv : v < 256) (x : Nat)
    (h1 : dst ≤ x) (h2 : x < dst + size) :
    fill_to_memory_atomic dst size v m x = ⟨v, hv⟩ := by
  simp only [fill_to_memory_atomic]
  by_cases h8 : Nat.lor dst size % 8 = 0
  · rw [if_pos h8]
    have hsz : size / 8 * 8 = size :=
      Nat.div_mul_cancel (Nat.dvd_of_mod_eq_zero (lor_mod_eight h8).2)
    exact fillUnits_const (fillPattern8_repl hv) (size / 8) dst x m h1 (by omega)
  · rw [if_neg h8]
    by_cases h4 : Nat.lor dst size % 4 = 0
    · rw [if_pos h4]
      have hsz : size / 4 * 4 = size :=
        Nat.div_mul_cancel (Nat.dvd_of_mod_eq_zero (lor_mod_four h4).2)
      exact fillUnits_const (fillPattern4_repl hv) (size / 4) dst x m h1 (by omega)
    · rw [if_neg h4]
      by_cases h2m : Nat.lor dst size % 2 = 0
      · rw [if_pos h2m]
        have hsz : size / 2 * 2 = size :=
          Nat.div_mul_cancel (Nat.dvd_of_mod_eq_zero (lor_mod_two h2m).2)
        exact fillUnits_const (fillPattern2_repl hv) (size / 2) dst x m h1 (by omega)
      · rw [if_neg h2m]
        unfold fill_to_bytes
        exact fillUnits_const (fillPattern1_repl hv) size dst x m h1 (by omega)

theorem fill_frame (dst size v : Nat) (m : Mem) (x : Nat)
    (h : x < dst ∨ dst + size ≤ x) : fill_to_memory_atomic dst size v m x = m x := by
  simp only [fill_to_memory_atomic]
  have hle8 : size / 8 * 8 ≤ size := Nat.div_mul_le_self size 8
  have hle4 : size / 4 * 4 ≤ size := Nat.div_mul_le_self size 4
  have hle2 : size / 2 * 2 ≤ size := Nat.div_mul_le_self size 2
  split_ifs
  · exact fillUnits_outside 8 (fillPattern8 v) (size / 8) dst x m (by omega)
  · exact fillUnits_outside 4 (fillPattern4 v) (size / 4) dst x m (by omega)
  · exact fillUnits_outside 2 (fillPattern2 v) (size / 2) dst x m (by omega)
  · exact fillUnits_outside 1 (v % 256) size dst x m (by omega)

theorem conjoint_memory_atomic_frame (s d size : Nat) (m : Mem) (x : Nat)
    (h : x < d ∨ d + size ≤ x) : conjoint_memory_atomic s d size m x = m x := by
  simp only [conjoint_memory_atomic, conjoint_jlongs_atomic, conjoint_jints_atomic,
    conjoint_jshorts_atomic, conjoint_jbytes]
  have hle8 : size / 8 * 8 ≤ size := Nat.div_mul_le_self size 8
  have hle4 : size / 4 * 4 ≤ size := Nat.div_mul_le_self size 4
  have hle2 : size / 2 * 2 ≤ size := Nat.div_mul_le_self size 2
  split_ifs
  · exact copyUnits_outside 8 (size / 8) s d x m (by omega)
  · exact copyUnits_outside 4 (size / 4) s d x m (by omega)
  · exact copyUnits_outside 2 (size / 2) s d x m (by omega)
  · exact copyUnits_outside 1 size s d x m (by omega)

theorem fill_zero (dst v : Nat) (m : Mem) : fill_to_memory_atomic dst 0 v m = m := by
  funext x
  exact fill_frame dst 0 v m x (by omega)

theorem conjoint_memory_atomic_zero (s d : Nat) (m : Mem) :
    conjoint_memory_atomic s d 0 m = m := by
  funext x
  exact conjoint_memory_atomic_frame s d 0 m x (by omega)

theorem conjoint_memory_atomic_classify (s d size : Nat) (m : Mem) :
    conjoint_memory_atomic s d size m =
      copyUnits (classify [s, d, size]) s d (size / classify [s, d, size]) m := by
  simp only [conjoint_memory_atomic, classify, List.foldl, lor_zero_left,
    conjoint_jlongs_atomic, conjoint_jints_atomic, conjoint_jshorts_atomic,
    conjoint_jbytes]
  split_ifs <;> first | rfl | rw [Nat.div_one]

theorem fill_to_memory_atomic_classify (dst size v : Nat) (m : Mem) :
    fill_to_memory_atomic dst size v m =
      fillUnits (classify [dst, size]) (fillPatternFor (classify [dst, size]) v)
        dst (size / classify [dst, size]) m := by
  have h1 : fillPatternFor 1 v = v % 256 := by norm_num [fillPatternFor]
  simp only [fill_to_memory_atomic, classify, List.foldl, lor_zero_left,
    fill_to_bytes]
  split_ifs <;> first | rfl | (rw [Nat.div_one, h1])

theorem classify_cases (xs : List Nat) :
    classify xs = 8 ∨ classify xs = 4 ∨ classify xs = 2 ∨ classify xs = 1 := by
  simp only [classify]
  split_ifs <;> simp

theorem classify_dvd (xs : List Nat) : classify xs ∣ xs.foldl Nat.lor 0 := by
  simp only [classify]
  split_ifs with h8 h4 h2
  · exact Nat.dvd_of_mod_eq_zero h8
  · exact Nat.dvd_of_mod_eq_zero h4
  · exact Nat.dvd_of_mod_eq_zero h2
  · exact Nat.one_dvd _

theorem classify_max (xs : List Nat) (d : Nat)
    (hd : d = 8 ∨ d = 4 ∨ d = 2 ∨ d = 1)
    (hdvd : d ∣ xs.foldl Nat.lor 0) : d ≤ classify xs := by
  simp only [classify]
  split_ifs with h8 h4 h2
  · rcases hd with rfl | rfl | rfl | rfl <;> omega
  · rcases hd with rfl | rfl | rfl | rfl
    · exact absurd (Nat.mod_eq_zero_of_dvd hdvd) h8
    · omega
    · omega
    · omega
  · rcases hd with rfl | rfl | rfl | rfl
    · exact absurd (Nat.mod_eq_zero_of_dvd hdvd) h8
    · exact absurd (Nat.mod_eq_zero_of_dvd hdvd) h4
    · omega
    · omega
  · rcases hd with rfl | rfl | rfl | rfl
    · exact absurd (Nat.mod_eq_zero_of_dvd hdvd) h8
    · exact absurd (Nat.mod_eq_zero_of_dvd hdvd) h4
    · exact absurd (Nat.mod_eq_zero_of_dvd hdvd) h2
    · omega

theorem do_conjoint_swap_elem_ne_none {w : Nat} (hw : w = 2 ∨ w = 4 ∨ w = 8)
    (D : CopyDirection) (sw : Bool) (s d n : Nat) (m : Mem) :
    do_conjoint_swap_elem D sw s d n w m ≠ none := by
  rcases hw with rfl | rfl | rfl <;> simp [do_conjoint_swap_elem]

/-- C1: for every element width `w ∈ {2,4,8}`, byte count `n` a multiple of
`w`, and any source/destination addresses (at any alignment, any overlap),
`conjoint_copy` leaves memory exactly as the reference that copies the source
through a separate temporary buffer into the destination. -/
theorem c1_overlap_equivalence :
    ∀ (w n src dst : Nat) (m : Mem), (w = 2 ∨ w = 4 ∨ w = 8) → n % w = 0 →
      src ≠ 0 → dst ≠ 0 →
      conjoint_copy src dst n w m = some (refCopyViaTemp m src dst n) := by
  intro w n src dst m hw hmod hs hd
  unfold conjoint_copy
  rw [conjoint_char false src dst n w m hw hmod hs hd, copyResult_false]

theorem c1_witness :
    ((4 : Nat) = 2 ∨ (4 : Nat) = 4 ∨ (4 : Nat) = 8) ∧ (8 : Nat) % 4 = 0 ∧
      conjoint_copy 4 16 8 4 mbuf4 = some (refCopyViaTemp mbuf4 4 16 8) :=
  ⟨Or.inr (Or.inl rfl), rfl,
    c1_overlap_equivalence 4 8 4 16 mbuf4 (Or.inr (Or.inl rfl)) rfl
      (by decide) (by decide)⟩

/-- C2: `conjoint_swap` stores at destination element position `i` the
byte-order reversal of the original `i`-th source element, for any overlap
(including in place); in particular in-place on the 4-byte buffer
`[01,02,03,04]` it yields `[04,03,02,01]`. -/
theorem c2_swap_reverses_elements :
    (∀ (w n src dst : Nat) (m : Mem) (i : Nat),
        (w = 2 ∨ w = 4 ∨ w = 8) → n % w = 0 → src ≠ 0 → dst ≠ 0 → i < n / w →
        (conjoint_swap src dst n w m).map
            (fun mm => readBytes mm (dst + i * w) w) =
          some ((readBytes m (src + i * w) w).reverse)) ∧
      (conjoint_swap 4 4 4 4 mbuf4).map (fun mm => readBytes mm 4 4) =
        some [4, 3, 2, 1] := by
  constructor
  · intro w n src dst m i hw hmod hs hd hi
    have hw0 : 0 < w := by rcases hw with h | h | h <;> omega
    unfold conjoint_swap
    rw [conjoint_char true src dst n w m hw hmod hs hd]
    exact congrArg some
      (readBytes_copyResult_swap m src dst n w i hw0
        (Nat.dvd_of_mod_eq_zero hmod) hi)
  · decide

theorem c2_witness :
    ((2 : Nat) = 2 ∨ (2 : Nat) = 4 ∨ (2 : Nat) = 8) ∧ 1 < 4 / 2 ∧
      (conjoint_swap 4 8 4 2 mbuf4).map (fun mm => readBytes mm (8 + 1 * 2) 2) =
        some ((readBytes mbuf4 (4 + 1 * 2) 2).reverse) :=
  ⟨Or.inl rfl, by decide,
    c2_swap_reverses_elements.1 2 4 4 8 mbuf4 1 (Or.inl rfl) rfl (by decide)
      (by decide) (by decide)⟩

/-- C3: `conjoint_swap` is an involution: applied twice in place it restores
all of memory; copied to a destination and back, the source range holds its
original bytes again. -/
theorem c3_swap_involution :
    (∀ (w n src : Nat) (m : Mem), (w = 2 ∨ w = 4 ∨ w = 8) → n % w = 0 →
        src ≠ 0 →
        (conjoint_swap src src n w m).bind (conjoint_swap src src n w) =
          some m) ∧
      (∀ (w n src dst : Nat) (m : Mem), (w = 2 ∨ w = 4 ∨ w = 8) → n % w = 0 →
        src ≠ 0 → dst ≠ 0 →
        ((conjoint_swap src dst n w m).bind (conjoint_swap dst src n w)).map
            (fun mm => readBytes mm src n) =
          some (readBytes m src n)) := by
  constructor
  · intro w n src m hw hmod hs
    have hw0 : 0 < w := by rcases hw with h | h | h <;> omega
    have hdvd := Nat.dvd_of_mod_eq_zero hmod
    unfold conjoint_swap
    rw [conjoint_char true src src n w m hw hmod hs hs]
    show conjoint_swap_if_needed true src src n w (copyResult m src src n w true) =
      some m
    rw [conjoint_char true src src n w _ hw hmod hs hs]
    refine congrArg some ?_
    funext x
    rw [copyResult_apply]
    by_cases hx : src ≤ x ∧ x < src + n
    · rw [if_pos hx]
      have hoff : x - src < n := by omega
      have hidx := swapOff_lt_dvd true hw0 hdvd hoff
      rw [copyResult_apply, if_pos (by omega)]
      have harg : src + swapOff w true (x - src) - src = swapOff w true (x - src) := by
        omega
      rw [harg, swapOff_invol true hw0]
      exact congrArg m (by omega)
    · rw [if_neg hx, copyResult_apply, if_neg hx]
  · intro w n src dst m hw hmod hs hd
    have hw0 : 0 < w := by rcases hw with h | h | h <;> omega
    have hdvd := Nat.dvd_of_mod_eq_zero hmod
    unfold conjoint_swap
    rw [conjoint_char true src dst n w m hw hmod hs hd]
    show (conjoint_swap_if_needed true dst src n w
        (copyResult m src dst n w true)).map (fun mm => readBytes mm src n) =
      some (readBytes m src n)
    rw [conjoint_char true dst src n w _ hw hmod hd hs]
    show some (readBytes
        (copyResult (copyResult m src dst n w true) dst src n w true) src n) =
      some (readBytes m src n)
    refine congrArg some ?_
    apply List.ext_getElem
    · simp [readBytes_length]
    · intro j h1 h2
      have hj : j < n := by rwa [readBytes_length] at h1
      rw [← List.getD_eq_getElem _ 0 h1, readBytes_getD _ n _ j hj,
        copyResult_apply, if_pos (by omega)]
      have harg : src + j - src = j := by omega
      rw [harg]
      have hidx := swapOff_lt_dvd true hw0 hdvd hj
      rw [copyResult_apply, if_pos (by omega)]
      have harg2 : dst + swapOff w true j - dst = swapOff w true j := by omega
      rw [harg2, swapOff_invol true hw0,
        ← List.getD_eq_getElem _ 0 h2, readBytes_getD _ n _ j hj]

theorem c3_witness :
    ((4 : Nat) = 2 ∨ (4 : Nat) = 4 ∨ (4 : Nat) = 8) ∧ (4 : Nat) % 4 = 0 ∧
      (conjoint_swap 4 4 4 4 mbuf4).bind (conjoint_swap 4 4 4 4) = some mbuf4 :=
  ⟨Or.inr (Or.inl rfl), rfl,
    c3_swap_involution.1 4 4 4 mbuf4 (Or.inr (Or.inl rfl)) rfl (by decide)⟩

/-- C4: the alignment classifier ORs its operands and returns the largest
power of two in {8,4,2,1} dividing the OR; `classify({8,16,24}) = 8`,
`classify({4,6,8}) = 2`, `classify({1,2,4}) = 1`; and both
`conjoint_memory_atomic` (over {from,to,size}) and `fill_to_memory_atomic`
(over {to,size}) select their transfer unit exactly by this rule. -/
theorem c4_classifier :
    classify [8, 16, 24] = 8 ∧ classify [4, 6, 8] = 2 ∧ classify [1, 2, 4] = 1 ∧
      (∀ xs : List Nat,
        (classify xs = 8 ∨ classify xs = 4 ∨ classify xs = 2 ∨ classify xs = 1) ∧
          classify xs ∣ xs.foldl Nat.lor 0 ∧
          ∀ d : Nat, (d = 8 ∨ d = 4 ∨ d = 2 ∨ d = 1) →
            d ∣ xs.foldl Nat.lor 0 → d ≤ classify xs) ∧
      (∀ (s d size : Nat) (m : Mem),
        conjoint_memory_atomic s d size m =
          copyUnits (classify [s, d, size]) s d (size / classify [s, d, size]) m) ∧
      (∀ (dst size v : Nat) (m : Mem),
        fill_to_memory_atomic dst size v m =
          fillUnits (classify [dst, size])
            (fillPatternFor (classify [dst, size]) v) dst
            (size / classify [dst, size]) m) := by
  refine ⟨by decide, by decide, by decide, ?_,
    conjoint_memory_atomic_classify, fill_to_memory_atomic_classify⟩
  intro xs
  exact ⟨classify_cases xs, classify_dvd xs,
    fun d hd hdvd => classify_max xs d hd hdvd⟩

theorem c4_witness :
    ((8 : Nat) = 8 ∨ (8 : Nat) = 4 ∨ (8 : Nat) = 2 ∨ (8 : Nat) = 1) ∧
      (8 : Nat) ∣ [8, 16, 24].foldl Nat.lor 0 ∧ 8 ≤ classify [8, 16, 24] :=
  ⟨Or.inl rfl, by decide,
    (c4_classifier.2.2.2.1 [8, 16, 24]).2.2 8 (Or.inl rfl) (by decide)⟩

/-- C5: `fill_to_memory_atomic` sets every destination byte to the fill byte;
the wide store patterns are the byte replicated across the unit width; on an
8-byte-aligned 64-byte buffer filling with 0xAB yields 64 bytes 0xAB. -/
theorem c5_fill_correct :
    (∀ (dst size v : Nat) (m : Mem) (hv : v < 256) (x : Nat),
        dst ≤ x → x < dst + size →
        fill_to_memory_atomic dst size v m x = ⟨v, hv⟩) ∧
      (∀ (v : Nat) (hv : v < 256),
        fillPattern8 v = bytesToVal (List.replicate 8 ⟨v, hv⟩) ∧
          fillPattern4 v = bytesToVal (List.replicate 4 ⟨v, hv⟩) ∧
          fillPattern2 v = bytesToVal (List.replicate 2 ⟨v, hv⟩)) ∧
      readBytes (fill_to_memory_atomic 8 64 171 m0) 8 64 =
        List.replicate 64 171 := by
  refine ⟨?_, ?_, by decide⟩
  · intro dst size v m hv x h1 h2
    exact fill_char dst size v m hv x h1 h2
  · intro v hv
    exact ⟨fillPattern8_eq hv, fillPattern4_eq hv, fillPattern2_eq hv⟩

theorem c5_witness :
    (171 : Nat) < 256 ∧ (8 : Nat) ≤ 8 ∧ (8 : Nat) < 8 + 64 ∧
      fill_to_memory_atomic 8 64 171 m0 8 = (171 : Byte) :=
  ⟨by norm_num, le_refl 8, by norm_num,
    c5_fill_correct.1 8 64 171 m0 (by norm_num) 8 (le_refl 8) (by norm_num)⟩

/-- C6: traversal direction is chosen once per call: descending exactly when
the destination lies strictly inside the source range, ascending otherwise;
for the 8-byte source 00..07 with `dst = src + 2` and 2-byte elements the
descending traversal is selected and the result equals the memmove
reference. -/
theorem c6_direction_selection :
    (∀ src dst n : Nat, selectDirection src dst n = CopyDirection.LEFT ↔
        src < dst ∧ dst < src + n) ∧
      selectDirection 8 10 8 = CopyDirection.LEFT ∧
      conjoint_copy 8 10 8 2 mbuf8 = some (refCopyViaTemp mbuf8 8 10 8) ∧
      (conjoint_copy 8 10 8 2 mbuf8).map (fun mm => readBytes mm 10 8) =
        some [0, 1, 2, 3, 4, 5, 6, 7] := by
  refine ⟨?_, by decide, ?_, by decide⟩
  · intro src dst n
    unfold selectDirection
    by_cases h : dst ≤ src ∨ src + n ≤ dst
    · rw [if_pos h]
      constructor
      · intro hc
        exact absurd hc (by decide)
      · intro hc
        exfalso
        omega
    · rw [if_neg h]
      push_neg at h
      constructor
      · intro _
        omega
      · intro _
        rfl
  · unfold conjoint_copy
    rw [conjoint_char false 8 10 8 2 mbuf8 (Or.inl rfl) rfl (by decide)
      (by decide), copyResult_false]

theorem c6_witness :
    (selectDirection 4 6 8 = CopyDirection.LEFT ↔ 4 < 6 ∧ 6 < 4 + 8) ∧
      selectDirection 4 6 8 = CopyDirection.LEFT :=
  ⟨c6_direction_selection.1 4 6 8,
    (c6_direction_selection.1 4 6 8).mpr (by norm_num)⟩

/-- C8: a call to the copy/swap engine aborts (modelled as `none`) exactly
when a precondition is violated: a null address, an element width outside
{2,4,8}, or a byte count that is not a multiple of the element width; when
the preconditions hold it never aborts. -/
theorem c8_fatal_precondition :
    ∀ (sw : Bool) (src dst n w : Nat) (m : Mem),
      conjoint_swap_if_needed sw src dst n w m = none ↔
        (src = 0 ∨ dst = 0 ∨ ¬(w = 2 ∨ w = 4 ∨ w = 8) ∨ ¬(n % w = 0)) := by
  intro sw src dst n w m
  unfold conjoint_swap_if_needed
  by_cases h1 : src = 0 ∨ dst = 0
  · rw [if_pos h1]
    constructor
    · intro _
      tauto
    · intro _
      rfl
  · rw [if_neg h1]
    by_cases h2 : w = 2 ∨ w = 4 ∨ w = 8
    · rw [if_neg (not_not.mpr h2)]
      by_cases h3 : n % w = 0
      · rw [if_neg (not_not.mpr h3)]
        constructor
        · intro hc
          exact absurd hc (do_conjoint_swap_elem_ne_none h2 _ sw src dst n m)
        · intro hr
          tauto
      · rw [if_pos h3]
        constructor
        · intro _
          tauto
        · intro _
          rfl
    · rw [if_pos h2]
      constructor
      · intro _
        tauto
      · intro _
        rfl

theorem c8_witness :
    conjoint_swap_if_needed true 0 4 4 2 m0 = none :=
  (c8_fatal_precondition true 0 4 4 2 m0).mpr (Or.inl rfl)

/-- C9: every operation writes only inside its destination range — all other
memory, in particular a disjoint source, is untouched — and a zero-size call
is a no-op. -/
theorem c9_frame :
    (∀ (dst size v : Nat) (m : Mem) (x : Nat), x < dst ∨ dst + size ≤ x →
        fill_to_memory_atomic dst size v m x = m x) ∧
      (∀ (src dst size : Nat) (m : Mem) (x : Nat), x < dst ∨ dst + size ≤ x →
        conjoint_memory_atomic src dst size m x = m x) ∧
      (∀ (sw : Bool) (src dst n w : Nat) (m : Mem) (x : Nat),
        (w = 2 ∨ w = 4 ∨ w = 8) → n % w = 0 → src ≠ 0 → dst ≠ 0 →
        (x < dst ∨ dst + n ≤ x) →
        (conjoint_swap_if_needed sw src dst n w m).map (fun mm => mm x) =
          some (m x)) ∧
      (∀ (dst v : Nat) (m : Mem), fill_to_memory_atomic dst 0 v m = m) ∧
      (∀ (src dst : Nat) (m : Mem), conjoint_memory_atomic src dst 0 m = m) ∧
      (∀ (sw : Bool) (src dst w : Nat) (m : Mem),
        (w = 2 ∨ w = 4 ∨ w = 8) → src ≠ 0 → dst ≠ 0 →
        conjoint_swap_if_needed sw src dst 0 w m = some m) := by
  refine ⟨fun dst size v m x h => fill_frame dst size v m x h,
    fun src dst size m x h => conjoint_memory_atomic_frame src dst size m x h,
    ?_, fun dst v m => fill_zero dst v m,
    fun src dst m => conjoint_memory_atomic_zero src dst m, ?_⟩
  · intro sw src dst n w m x hw hmod hs hd hx
    rw [conjoint_char sw src dst n w m hw hmod hs hd]
    refine congrArg some ?_
    show copyResult m src dst n w sw x = m x
    rw [copyResult_apply, if_neg (by omega)]
  · intro sw src dst w m hw hs hd
    rw [conjoint_char sw src dst 0 w m hw (Nat.zero_mod w) hs hd,
      copyResult_zero]

theorem c9_witness :
    ((3 : Nat) < 8 ∨ (8 : Nat) + 64 ≤ 3) ∧
      fill_to_memory_atomic 8 64 171 m0 3 = m0 3 :=
  ⟨Or.inl (by norm_num), c9_frame.1 8 64 171 m0 3 (Or.inl (by norm_num))⟩

/-- C7 counterexample: the claim `classify({0,1024}) = 1` is false — the code
classifies the OR 1024, which is divisible by 8. -/
theorem c7_counterexample : classify [0, 1024] ≠ 1 := by decide

/-- C7 (amended): `classify({0,1024}) = 8` — an operand equal to 0 contributes
no bits to the OR, so it does not restrict alignment downward: the OR is 1024
and the classifier returns 8. -/
theorem c7_amended : classify [0, 1024] = 8 := by decide
